import Mathlib

/-!
Verification of the projectile lifecycle engine of `bevy_javelin`.

The development shallowly embeds the core data model and algorithms of the
repository: the reference-counted lifetime token (`ProjectileRc` in
`src/traits.rs`), the spawn-rate accumulator (`SpawnRate` in `src/util.rs`
and `src/spawning.rs`), the spawning-policy combinators (`src/spawning.rs`),
the spawner extension chains and the type-erased projectile adapter
(`src/traits.rs`), the per-tick update driver (`projectile_update` in
`src/lib.rs`), the context accessors (`src/control.rs`), and the command
propagation walk (`src/cluster.rs`).

`f32` quantities (delta time, lifetimes, accumulators) are modelled as exact
rationals; entities are modelled as natural numbers.
-/

namespace BevyJavelin

/-! ## Reference-counted lifetime token (`ProjectileRc`, src/traits.rs) -/

/-- The two states of a lifetime token: `Owned(Arc<()>)` holds one strong
reference to the shared counter, `Released(Weak<()>)` holds none. -/
inductive Token : Type where
  | owned : Token
  | released : Token
deriving DecidableEq

/-- `ProjectileRc::release` (src/traits.rs:212-217): an `Owned` token is
downgraded to `Released`; releasing an already `Released` token is a no-op. -/
def Token.release : Token → Token
  | .owned => .released
  | .released => .released

/-- Number of strong references held by a family of token clones: each
`Owned` clone holds exactly one `Arc` strong reference. -/
def countOwned : List Token → Nat
  | [] => 0
  | .owned :: ts => countOwned ts + 1
  | .released :: ts => countOwned ts

/-- `ProjectileRc::should_drop` (src/traits.rs:219-224) for the token at
index `i` of a family `fam` of clones of one root token: `Owned` tokens
report `false`; a `Released` token reports whether the shared counter's
strong count (the number of `Owned` clones anywhere) is zero. -/
def should_drop (fam : List Token) (i : Nat) : Bool :=
  match fam[i]? with
  | some .owned => false
  | some .released => decide (countOwned fam = 0)
  | none => false

/-- Release the token at index `i` of a family (out-of-range indices are
no-ops). -/
def releaseAt : List Token → Nat → List Token
  | [], _ => []
  | t :: ts, 0 => t.release :: ts
  | t :: ts, n + 1 => t :: releaseAt ts n

/-- Perform a sequence of releases, identified by token index, in order. -/
def releaseAll (fam : List Token) (l : List Nat) : List Token :=
  l.foldl releaseAt fam

/-- `ProjectileRc::should_drop` with the family's strong count passed as an
ambient parameter; used by the update-driver model where only one token of
the family is in view. -/
def should_drop_tok (tok : Token) (strong : Nat) : Bool :=
  match tok with
  | .owned => false
  | .released => decide (strong = 0)

/-! ## Spawn rate accumulator (`SpawnRate`, src/util.rs and src/spawning.rs) -/

/-- `SpawnRate` (src/util.rs:180-183): a rate and a fractional accumulator. -/
structure SpawnRate : Type where
  times_per_second : ℚ
  meta : ℚ
deriving DecidableEq

/-- Rust's `f32::fract`: the self-minus-truncation remainder, where
truncation rounds toward zero. -/
def fract32 (q : ℚ) : ℚ :=
  if q < 0 then q - ⌈q⌉ else q - ⌊q⌋

/-- Rust's saturating `as usize` cast applied to a whole number: negative
values clamp to zero. -/
def floorToUsize (q : ℚ) : Nat :=
  (⌊q⌋).toNat

/-- `SpawnRate::update` (src/util.rs:237-239): `meta += times_per_second * dt`. -/
def SpawnRate.update (s : SpawnRate) (dt : ℚ) : SpawnRate :=
  { s with meta := s.meta + s.times_per_second * dt }

/-- `SpawnRate::spawns` (src/util.rs:210-214), identical to the
`spawn_count` override in `impl ProjectileSpawning for SpawnRate`
(src/spawning.rs:130-134): return `meta.floor() as usize` and keep
`meta.fract()` in the accumulator. -/
def SpawnRate.spawns (s : SpawnRate) : Nat × SpawnRate :=
  (floorToUsize s.meta, { s with meta := fract32 s.meta })

/-- `SpawnRate::try_spawn` (src/util.rs:227-234, src/spawning.rs:121-128):
consume one whole unit if available. -/
def SpawnRate.try_spawn (s : SpawnRate) : Bool × SpawnRate :=
  if 1 ≤ s.meta then (true, { s with meta := s.meta - 1 })
  else (false, s)

/-- The default `ProjectileSpawning::spawn_count` (src/spawning.rs:25-31)
specialised to `SpawnRate`: repeatedly call `try_spawn` until it returns
false, counting successes; the accumulator is threaded through. -/
def drainCount (meta : ℚ) : Nat × ℚ :=
  if 1 ≤ meta then
    let r := drainCount (meta - 1)
    (r.1 + 1, r.2)
  else (0, meta)
termination_by (⌊meta⌋).toNat
decreasing_by
  have h1 : (1 : ℚ) ≤ meta := by assumption
  have h2 : (1 : ℤ) ≤ ⌊meta⌋ := by
    exact_mod_cast Int.le_floor.mpr (by exact_mod_cast h1)
  have h3 : ⌊meta - 1⌋ = ⌊meta⌋ - 1 := by
    simp [Int.floor_sub_int meta 1]
  omega

/-! ## Spawning-policy combinators (src/spawning.rs) -/

/-- The `ProjectileSpawning` trait (src/spawning.rs:11-31) as a record of
operations over a state type `β`; `try_spawn` and `update` return the
mutated state explicitly. -/
structure Spawning (β : Type) : Type where
  update : β → ℚ → β
  try_spawn : β → Bool × β
  finished : β → Bool

/-- `Burst` (src/spawning.rs:141-160): spawn the stored count once, then
finish. -/
def burstSpawning : Spawning Nat where
  update := fun b _ => b
  try_spawn := fun b => match b with
    | 0 => (false, 0)
    | n + 1 => (true, n)
  finished := fun b => decide (b = 0)

/-- `RandomBursts` (src/spawning.rs:188-194). The `fastrand::Rng` is
modelled as the stream of raw draws it will produce; `range` is the pair
`(lo, hi)` of the inclusive range. -/
structure RandomBurstsState (β : Type) : Type where
  base : β
  lo : Nat
  hi : Nat
  current : Nat
  rng : List Nat

/-- `Rng::usize(lo..=hi)`: a draw mapped into the inclusive range; for a
single-point range the result is forced to that point. -/
def rngUsize (lo hi raw : Nat) : Nat :=
  lo + raw % (hi + 1 - lo)

/-- `RandomBursts::try_spawn` (src/spawning.rs:201-216): drain a pending
burst first; otherwise trigger the base spawner, sample a burst size, and
swallow the trigger when the sampled size is zero. -/
def RandomBursts.try_spawn (S : Spawning β) (s : RandomBurstsState β) :
    Bool × RandomBurstsState β :=
  if 0 < s.current then (true, { s with current := s.current - 1 })
  else
    let (ok, b) := S.try_spawn s.base
    if ok then
      let spawns := rngUsize s.lo s.hi (s.rng.headD 0)
      if spawns = 0 then (false, { s with base := b, rng := s.rng.tail })
      else (true, { s with base := b, current := spawns - 1, rng := s.rng.tail })
    else (false, { s with base := b })

/-- `ProjectileSpawning::in_random_bursts` (src/spawning.rs:49-56): wrap a
base spawning policy, with `current = 0`; the random seed is modelled by the
draw stream `rng`. -/
def in_random_bursts (base : β) (lo hi : Nat) (rng : List Nat) :
    RandomBurstsState β :=
  { base := base, lo := lo, hi := hi, current := 0, rng := rng }

/-! ## Spawner extension chains (`spawner_done`, src/traits.rs:413-415) -/

/-- A spawner together with its optional `extension` chain
(`ProjectileSpawner::extension`, src/traits.rs:127-129), keeping only the
completion predicate `is_complete` of each link, as a function of the
context's lifetime. `last` is a spawner whose `extension()` is `None`;
`cons` is a spawner chaining to a further spawner. -/
inductive SpChain : Type where
  | last : (ℚ → Bool) → SpChain
  | cons : (ℚ → Bool) → SpChain → SpChain

/-- `spawner_done` (src/traits.rs:413-415):
`this.is_complete(cx) && this.extension().is_none_or(|x| spawner_done(x, cx))`. -/
def spawner_done : SpChain → ℚ → Bool
  | .last ic, t => ic t
  | .cons ic ext, t => ic t && spawner_done ext t

/-- The completion predicates of every link of a chain, head first. -/
def SpChain.toList : SpChain → List (ℚ → Bool)
  | .last ic => [ic]
  | .cons ic ext => ic :: ext.toList

/-- Concrete two-spawner chain for the documented scenario: spawner A is
complete from tick 5 onward, its extension B from tick 8 onward. -/
def chainAB : SpChain :=
  .cons (fun t => decide ((5 : ℚ) ≤ t)) (.last (fun t => decide ((8 : ℚ) ≤ t)))

/-! ## Type-erased projectile adapter (`ErasedProjectileInst`, src/traits.rs) -/

/-- A user `Projectile` implementation (the `Projectile` trait,
src/traits.rs:145-183) abstracted as a state machine over a state type `σ`
that also carries any world state the hooks mutate through the context.
`hasSpawner` models whether `as_spawner` currently returns `Some`;
`updateSpawner` is the effect of `update_spawner` on the combined state and
`spawnerDone` is `spawner_done` evaluated on it. The `ℚ` arguments are the
context's `lifetime` and the tick's `dt`. -/
structure ProjModel (σ : Type) : Type where
  isExpired : σ → ℚ → Bool
  updateProjectile : σ → ℚ → ℚ → σ
  onExpire : σ → σ
  hasSpawner : σ → Bool
  updateSpawner : σ → ℚ → ℚ → σ
  spawnerDone : σ → ℚ → Bool

/-- Result of one `ErasedProjectileInst::update` call: the mutated state,
the adapter's `expired` flag, the returned done flag, and an observation of
whether `on_expire` ran during this call. -/
structure TickResult (σ : Type) : Type where
  state : σ
  expired : Bool
  done : Bool
  firedOnExpire : Bool

/-- The projectile phase of `ErasedProjectileInst::update`
(src/traits.rs:370-378): while not expired run `update_projectile`;
on the first call where `is_expired` holds set the `expired` flag and run
`on_expire`; afterwards do nothing. Returns the state, the flag, and
whether `on_expire` ran. -/
def projectilePhase (P : ProjModel σ) (s : σ) (expired : Bool)
    (lifetime dt : ℚ) : σ × Bool × Bool :=
  if !(P.isExpired s lifetime) then (P.updateProjectile s lifetime dt, expired, false)
  else if !expired then (P.onExpire s, true, true)
  else (s, expired, false)

/-- `ErasedProjectileInst::update` (src/traits.rs:369-385): after the
projectile phase, if the projectile exposes a spawner via `as_spawner`,
run `update_spawner` on it and return `spawner_done && expired`; otherwise
return `expired`. -/
def instUpdate (P : ProjModel σ) (s : σ) (expired : Bool)
    (lifetime dt : ℚ) : TickResult σ :=
  let (s1, e1, fired) := projectilePhase P s expired lifetime dt
  if P.hasSpawner s1 then
    let s2 := P.updateSpawner s1 lifetime dt
    ⟨s2, e1, P.spawnerDone s2 lifetime && e1, fired⟩
  else
    ⟨s1, e1, e1, fired⟩

/-- Drive the adapter through a sequence of per-tick updates, starting from
state `s`, expired flag `e` and lifetime `l`; each tick advances the
lifetime by its `dt` before dispatch, as the driver does. Records, per
tick, the value `is_expired` returned at that tick's check and whether
`on_expire` ran. -/
def instRun (P : ProjModel σ) : σ → Bool → ℚ → List ℚ → List (Bool × Bool)
  | _, _, _, [] => []
  | s, e, l, dt :: rest =>
    let l' := l + dt
    let r := instUpdate P s e l' dt
    (P.isExpired s l', r.firedOnExpire) :: instRun P r.state r.expired l' rest

/-! ## Per-tick update driver (`projectile_update`, src/lib.rs:38-91) -/

/-- A `ProjectileInstance` (src/traits.rs:238-245): the type-erased
dispatch state `projectile`, the `lifetime`, the token, and the `done` and
`root` flags. -/
structure Inst (σ : Type) : Type where
  projectile : σ
  lifetime : ℚ
  rc : Token
  done : Bool
  root : Bool

/-- The body of the `projectile_update` loop (src/lib.rs:60-90) for one
instance. `step` abstracts `projectile.projectile.update(cx, dt)`: given
the dispatch state, the already-advanced lifetime and `dt`, it returns the
mutated dispatch state and the done flag. `strong` is the strong count of
the instance's token family. Returns the instance after the tick and
whether a despawn command was issued for it. -/
def projectile_update_step (step : σ → ℚ → ℚ → σ × Bool) (strong : Nat)
    (i : Inst σ) (dt : ℚ) : Inst σ × Bool :=
  if i.done then
    (i, i.root && should_drop_tok i.rc strong)
  else
    let lifetime := i.lifetime + dt
    let (p, fin) := step i.projectile lifetime dt
    if fin then
      ({ projectile := p, lifetime := lifetime, rc := i.rc.release,
         done := true, root := i.root }, false)
    else
      ({ projectile := p, lifetime := lifetime, rc := i.rc,
         done := false, root := i.root }, false)

/-! ## Context accessors reaching other instances (src/control.rs)

`Entity` is modelled as `Nat`. The `unsafe_other` query is a partial map
`other : Nat → Option O` from entities to their query row; the row
projections (`Transform`, `GlobalTransform`, component lookup, the
`ProjectileInstance` downcast) are abstracted as function parameters. -/

/-- `ProjectileContext::parent_transform` (src/control.rs:211-218): read
the relation on the current entity, drop it when it points at the current
entity itself, look the parent up in the `unsafe_other` query, project its
`Transform`, and fall back to the identity (`dflt`) at every failure. -/
def parent_transform (self : Nat) (rel : Option Nat)
    (other : Nat → Option O) (tr : O → T) (dflt : T) : T :=
  ((rel.bind fun p => if p ≠ self then some p else none).bind
    fun e => (other e).map tr).getD dflt

/-- `ProjectileContext::parent_global_transform` (src/control.rs:222-229):
as `parent_transform` but projecting the parent's `GlobalTransform`. -/
def parent_global_transform (self : Nat) (rel : Option Nat)
    (other : Nat → Option O) (gt : O → T) (dflt : T) : T :=
  ((rel.bind fun p => if p ≠ self then some p else none).bind
    fun e => (other e).map gt).getD dflt

/-- `ProjectileContext::parent` (src/control.rs:232-242): prefer the
`ChildOf` relation, fall back to `WorldSpaceChildOf`, and verify the result
is not the current entity. -/
def parentOf (self : Nat) (childOf worldChildOf : Option Nat) : Option Nat :=
  (childOf.orElse fun _ => worldChildOf).bind
    fun e => if e ≠ self then some e else none

/-- `ProjectileContext::get_from_parent` (src/control.rs:251-255): look the
parent up in the `unsafe_other` query and read a component off its row. -/
def get_from_parent (self : Nat) (childOf worldChildOf : Option Nat)
    (other : Nat → Option O) (comp : O → Option C) : Option C :=
  ((parentOf self childOf worldChildOf).bind other).bind comp

/-- `ProjectileContext::children` (src/control.rs:338-367): iterate the
relationship target list, skip the current entity, skip entities missing
from the `unsafe_other` query, skip instances whose downcast fails, and
hand every remaining row to the callback: the result collects the rows the
callback receives. `ProjectileContext::iter_children`
(src/control.rs:372-401) is the same loop over a caller-provided list. -/
def children_rows (self : Nat) (targets : List Nat)
    (other : Nat → Option O) (downcast : O → Option P) : List (Nat × P) :=
  targets.filterMap fun e =>
    if e = self then none
    else (other e).bind fun o => (downcast o).map fun p => (e, p)

/-! ## Parent transform reads during the update pass (src/lib.rs, src/control.rs)

A minimal two-entity model of one `projectile_update` pass over a
world-space parent and child: transforms are rationals, the pass mutates
one entity's transform at a time in iteration order, and a child's
`parent_transform` read goes through the live query (`unsafe_other`), i.e.
through the world state current at the moment of the read. -/

/-- A projectile instance of the mini pass: its `WorldSpaceChildOf`
relation and its update behavior, mapping its own transform and its
`parent_transform` read to its new transform. -/
structure MiniInst : Type where
  parentRel : Option Nat
  upd : ℚ → ℚ → ℚ

/-- Run one update pass in iteration order `order` over world `w`
(entity to transform). For each entity, its `parent_transform` read is
evaluated against the current world — exactly as the driver's live
`unsafe_other` query does — then its transform is replaced. Returns the
per-entity reads in order, and the world after the pass. -/
def miniPass (insts : Nat → MiniInst) (order : List Nat) (w : Nat → ℚ) :
    List (Nat × ℚ) × (Nat → ℚ) :=
  match order with
  | [] => ([], w)
  | e :: rest =>
    let pread := parent_transform e (insts e).parentRel
      (fun x => some (w x)) id 0
    let w1 := fun x => if x = e then (insts e).upd (w x) pread else w x
    let r := miniPass insts rest w1
    ((e, pread) :: r.1, r.2)

/-- Concrete two-instance world: entity 0 is a root whose update moves its
transform to 1; entity 1 is a world-space child of 0 that keeps its own
transform. -/
def cexInsts : Nat → MiniInst
  | 0 => { parentRel := none, upd := fun _ _ => 1 }
  | _ => { parentRel := some 0, upd := fun t _ => t }

/-- Initial world of the concrete scenario: every transform is 0 at the
start of the tick. -/
def cexWorld : Nat → ℚ := fun _ => 0

/-! ## Command propagation (src/cluster.rs:76-101) -/

/-- The bevy `Children` hierarchy below one entity, as a finite tree. -/
inductive HTree : Type where
  | node : Nat → List HTree → HTree

/-- The entity at the root of a subtree. -/
def HTree.entity : HTree → Nat
  | .node e _ => e

/-- `apply_projectile_command` (src/cluster.rs:86-101): if the addressed
entity has a `ProjectileInstance`, apply the command to it; if
`apply_command` returns true, recurse into each hierarchy child in order.
`live e` is `none` when entity `e` has no `ProjectileInstance`, and
`some p` when it has one whose `apply_command` returns `p`. The result is
the list of entities the command is applied to, in application order. -/
def applyCmd (live : Nat → Option Bool) : HTree → List Nat
  | .node e cs =>
    match live e with
    | none => []
    | some prop =>
      e :: (if prop then (cs.attach.map fun c => applyCmd live c.1).flatten else [])
termination_by t => sizeOf t
decreasing_by
  have := List.sizeOf_lt_of_mem c.2
  simp only [HTree.node.sizeOf_spec]
  omega

/-- Preorder traversal of all entities of a subtree. -/
def preorderT : HTree → List Nat
  | .node e cs => e :: (cs.attach.map fun c => preorderT c.1).flatten
termination_by t => sizeOf t
decreasing_by
  have := List.sizeOf_lt_of_mem c.2
  simp only [HTree.node.sizeOf_spec]
  omega

/-- The command reaches entity `x` in subtree `t`: `x` is the addressed
root (provided it is a live instance), or a descendant reachable from the
root through nodes that are live and whose `apply_command` propagates. -/
inductive Delivered (live : Nat → Option Bool) : HTree → Nat → Prop where
  | here : ∀ e cs b, live e = some b → Delivered live (.node e cs) e
  | child : ∀ e cs t x, live e = some true → t ∈ cs →
      Delivered live t x → Delivered live (.node e cs) x

/-! ## Theorems -/

/-- C3: the composite completion predicate `spawner_done` holds iff the
spawner itself and, recursively, every chained extension report complete
(it is the conjunction of `is_complete` across the whole extension chain);
in particular, for chained spawners where A completes at tick 5 and its
extension B at tick 8, the composite is complete exactly from tick 8
onward (and in particular not on ticks 0 through 7). -/
theorem c3_spawner_done_conjunction :
    (∀ (c : SpChain) (t : ℚ),
      spawner_done c t = (SpChain.toList c).all fun ic => ic t)
    ∧ (∀ t : ℚ, spawner_done chainAB t = decide ((8 : ℚ) ≤ t)) := by
  constructor
  · intro c t
    induction c with
    | last ic => simp [spawner_done, SpChain.toList]
    | cons ic ext ih => simp [spawner_done, SpChain.toList, ih]
  · intro t
    by_cases h : (8 : ℚ) ≤ t
    · have h5 : (5 : ℚ) ≤ t := le_trans (by norm_num) h
      simp [chainAB, spawner_done, h, h5]
    · simp [chainAB, spawner_done, h]

/-- C1: the projectile adapter's `update` returns true (fully done) iff the
`expired` flag is set on return (the `on_expire` hook has run) and either
the projectile exposes no spawner capability via `as_spawner`, or the
exposed spawner chain reports complete after this tick's spawner update. -/
theorem c1_adapter_done_iff (P : ProjModel σ) (s : σ) (expired : Bool)
    (l dt : ℚ) :
    (instUpdate P s expired l dt).done = true ↔
      ((instUpdate P s expired l dt).expired = true ∧
       (P.hasSpawner (projectilePhase P s expired l dt).1 = false ∨
        P.spawnerDone (instUpdate P s expired l dt).state l = true)) := by
  unfold instUpdate
  rcases hp : projectilePhase P s expired l dt with ⟨s1, e1, fired⟩
  by_cases hs : P.hasSpawner s1
  · simp [hs, Bool.and_eq_true, and_comm]
  · simp [hs]

/-- C10: a `RandomBursts` combinator with a zero sampled burst size (as
built by `in_random_bursts(0, 0)`) wrapping a base with an available unit:
`try_spawn` consumes one unit from the base yet returns false — the base
trigger is swallowed without a spawn being reported, and the swallowed unit
is not restored to the base. -/
theorem c10_zero_burst_swallows_trigger (S : Spawning β) (b b' : β)
    (rng : List Nat) (h : S.try_spawn b = (true, b')) :
    RandomBursts.try_spawn S (in_random_bursts b 0 0 rng) =
      (false, { base := b', lo := 0, hi := 0, current := 0, rng := rng.tail }) := by
  simp [RandomBursts.try_spawn, in_random_bursts, h, rngUsize, Nat.mod_one]

/-- Witness for C10: a `Burst(1)` base with one available unit, wrapped by
`in_random_bursts(0, 0)`: the unit is consumed, no spawn is reported. -/
theorem c10_witness :
    RandomBursts.try_spawn burstSpawning (in_random_bursts 1 0 0 []) =
      (false, { base := 0, lo := 0, hi := 0, current := 0, rng := [] }) :=
  c10_zero_burst_swallows_trigger burstSpawning 1 0 [] rfl

/-- Helper: repeatedly calling `try_spawn` until it fails drains exactly
the whole units of a non-negative accumulator and leaves its fractional
part. -/
theorem drainCount_spec : ∀ (n : Nat) (meta : ℚ), 0 ≤ meta → (⌊meta⌋).toNat = n →
    drainCount meta = ((⌊meta⌋).toNat, Int.fract meta) := by
  intro n
  induction n using Nat.strong_induction_on with
  | _ n ih =>
    intro meta hm hn
    by_cases h1 : 1 ≤ meta
    · have hfl : ⌊meta - 1⌋ = ⌊meta⌋ - 1 := by
        simp [Int.floor_sub_int meta 1]
      have h1' : (1 : ℤ) ≤ ⌊meta⌋ := Int.le_floor.mpr (by exact_mod_cast h1)
      have hlt : (⌊meta - 1⌋).toNat < n := by omega
      have hrec := ih _ hlt (meta - 1) (by linarith) rfl
      rw [drainCount]
      simp only [h1, if_true, hrec]
      have hfr : Int.fract (meta - 1) = Int.fract meta := by
        simp [Int.fract_sub_int meta 1]
      rw [hfr, Prod.mk.injEq]
      exact ⟨by omega, rfl⟩
    · have hlt1 : meta < 1 := lt_of_not_le h1
      have hfl0 : ⌊meta⌋ = 0 := Int.floor_eq_zero_iff.mpr ⟨hm, hlt1⟩
      rw [drainCount]
      simp [h1, hfl0, Int.fract, Int.self_sub_floor]

/-- C8: for a `SpawnRate` with non-negative accumulator `meta`, draining —
by one call to `spawns`/`spawn_count` or by repeatedly calling `try_spawn`
until it fails — yields exactly `floor(meta)` spawns (a natural number,
never negative or fractional), and leaves the accumulator equal to the
fractional part of `meta`, a value in `[0, 1)`. `f32` arithmetic is
modelled as exact rational arithmetic. -/
theorem c8_spawn_rate_drain (s : SpawnRate) (h : 0 ≤ s.meta) :
    s.spawns.1 = (⌊s.meta⌋).toNat ∧
    s.spawns.2.meta = Int.fract s.meta ∧
    0 ≤ s.spawns.2.meta ∧ s.spawns.2.meta < 1 ∧
    drainCount s.meta = ((⌊s.meta⌋).toNat, Int.fract s.meta) := by
  have hfr : fract32 s.meta = Int.fract s.meta := by
    rw [fract32, if_neg (not_lt.mpr h)]
    rfl
  refine ⟨rfl, ?_, ?_, ?_, ?_⟩
  · simp [SpawnRate.spawns, hfr]
  · simp [SpawnRate.spawns, hfr, Int.fract_nonneg]
  · simp [SpawnRate.spawns, hfr, Int.fract_lt_one]
  · exact drainCount_spec _ s.meta h rfl

/-- Witness for C8: rate 2 with accumulator 7/2 drains 3 spawns and keeps
accumulator 1/2. -/
theorem c8_witness :
    (SpawnRate.spawns ⟨2, 7/2⟩).1 = (⌊(7/2 : ℚ)⌋).toNat ∧
    (SpawnRate.spawns ⟨2, 7/2⟩).2.meta = Int.fract (7/2 : ℚ) ∧
    0 ≤ (SpawnRate.spawns ⟨2, 7/2⟩).2.meta ∧
    (SpawnRate.spawns ⟨2, 7/2⟩).2.meta < 1 ∧
    drainCount (7/2 : ℚ) = ((⌊(7/2 : ℚ)⌋).toNat, Int.fract (7/2 : ℚ)) :=
  c8_spawn_rate_drain ⟨2, 7/2⟩ (by norm_num)

/-- Helper: releasing one token only rewrites that index. -/
theorem releaseAt_getElem? : ∀ (fam : List Token) (j i : Nat),
    (releaseAt fam j)[i]? = if i = j then (fam[i]?).map Token.release else fam[i]? := by
  intro fam
  induction fam with
  | nil => intro j i; simp [releaseAt]
  | cons t ts ih =>
    intro j i
    cases j with
    | zero =>
      cases i with
      | zero => simp [releaseAt]
      | succ i => simp [releaseAt]
    | succ j =>
      cases i with
      | zero => simp [releaseAt]
      | succ i => simpa [releaseAt, Nat.succ_eq_add_one] using ih j i

/-- Helper: `Token.release` is idempotent. -/
theorem Token.release_idem (t : Token) : t.release.release = t.release := by
  cases t <;> rfl

/-- Helper: after a sequence of releases, the token at index `i` is the
original token, released iff `i` occurs in the sequence — the resulting
family depends only on the set of released indices, not their order. -/
theorem releaseAll_getElem? : ∀ (l : List Nat) (fam : List Token) (i : Nat),
    (releaseAll fam l)[i]? =
      if i ∈ l then (fam[i]?).map Token.release else fam[i]? := by
  intro l
  induction l with
  | nil => intro fam i; simp [releaseAll]
  | cons j l ih =>
    intro fam i
    have step : releaseAll fam (j :: l) = releaseAll (releaseAt fam j) l := rfl
    rw [step, ih, releaseAt_getElem?]
    by_cases hij : i = j
    · subst hij
      have hcomp : Token.release ∘ Token.release = Token.release :=
        funext Token.release_idem
      by_cases hil : i ∈ l <;> simp [hil, Option.map_map, hcomp]
    · by_cases hil : i ∈ l <;> simp [hij, hil]

/-- Helper: the strong count is zero iff no clone anywhere is `Owned`. -/
theorem countOwned_eq_zero_iff : ∀ (fam : List Token),
    countOwned fam = 0 ↔ ∀ t ∈ fam, t ≠ Token.owned := by
  intro fam
  induction fam with
  | nil => simp [countOwned]
  | cons t ts ih =>
    cases t with
    | owned => simp [countOwned]
    | released => simpa [countOwned] using ih

/-- C4: for a family of `m` lifetime-token clones of one root token, all
initially `Owned`, after any sequence `l` of releases (arbitrary order,
repetitions allowed), `should_drop` on the token at index `i` is false if
that token is still `Owned` (`i ∉ l`), false on a `Released` token while
any clone remains `Owned`, and true on a `Released` token exactly once
every index has been released — so the answer depends only on the set of
released clones, and flips to true exactly when the last `Owned` clone is
released. -/
theorem c4_should_drop_family (m : Nat) (l : List Nat) (i : Nat) (h : i < m) :
    should_drop (releaseAll (List.replicate m Token.owned) l) i =
      (decide (i ∈ l) && decide (∀ j, j < m → j ∈ l)) := by
  have hrep : ∀ k : Nat, (List.replicate m Token.owned)[k]? =
      if k < m then some Token.owned else none := by
    intro k
    by_cases hk : k < m
    · simp [List.getElem?_replicate, hk]
    · simp [List.getElem?_replicate, hk]
  have hfam : ∀ k : Nat, (releaseAll (List.replicate m Token.owned) l)[k]? =
      if k < m then some (if k ∈ l then Token.released else Token.owned)
      else none := by
    intro k
    rw [releaseAll_getElem?, hrep k]
    by_cases hk : k < m <;> by_cases hkl : k ∈ l <;>
      simp [hk, hkl, Token.release]
  by_cases hil : i ∈ l
  · have hi : (releaseAll (List.replicate m Token.owned) l)[i]? =
        some Token.released := by simp [hfam i, h, hil]
    rw [should_drop, hi]
    have hiff : countOwned (releaseAll (List.replicate m Token.owned) l) = 0 ↔
        ∀ j, j < m → j ∈ l := by
      rw [countOwned_eq_zero_iff]
      constructor
      · intro hall j hj
        by_contra hjl
        have hjg : (releaseAll (List.replicate m Token.owned) l)[j]? =
            some Token.owned := by simp [hfam j, hj, hjl]
        exact hall Token.owned (List.getElem?_mem hjg) rfl
      · intro hall t ht
        rcases List.mem_iff_getElem?.mp ht with ⟨j, hj⟩
        rw [hfam j] at hj
        by_cases hjm : j < m
        · rw [if_pos hjm] at hj
          have := hall j hjm
          simp [this] at hj
          simp [← hj]
        · simp [hjm] at hj
    rw [decide_eq_true hil, Bool.true_and]
    exact decide_eq_decide.mpr hiff
  · have hi : (releaseAll (List.replicate m Token.owned) l)[i]? =
        some Token.owned := by simp [hfam i, h, hil]
    rw [should_drop, hi]
    simp [hil]

/-- Witness for C4: a root and two children (indices 0, 1, 2), released in
the order 2, 0, 1: after all three releases, `should_drop` on token 0 is
true. -/
theorem c4_witness :
    should_drop (releaseAll (List.replicate 3 Token.owned) [2, 0, 1]) 0 =
      (decide (0 ∈ [2, 0, 1]) && decide (∀ j, j < 3 → j ∈ [2, 0, 1])) :=
  c4_should_drop_family 3 [2, 0, 1] 0 (by decide)

/-- C5: one pass of the per-tick update driver over an instance. If `done`
is already true, the instance (lifetime, dispatch object, token, done flag)
is left unchanged and a despawn is issued exactly when the instance is root
and its token reports `should_drop`. If `done` is false, no despawn is
issued, `dt` is added to `lifetime` before dispatch, dispatch `update` is
invoked at the advanced lifetime, and `done` is set and the token released
exactly when dispatch `update` returns true — so `lifetime` advances only
while `done` is false. -/
theorem c5_update_driver (step : σ → ℚ → ℚ → σ × Bool) (strong : Nat)
    (i : Inst σ) (dt : ℚ) :
    (i.done = true →
      (projectile_update_step step strong i dt).1 = i ∧
      (projectile_update_step step strong i dt).2 =
        (i.root && should_drop_tok i.rc strong))
    ∧ (i.done = false →
      (projectile_update_step step strong i dt).1.lifetime = i.lifetime + dt ∧
      (projectile_update_step step strong i dt).2 = false ∧
      (projectile_update_step step strong i dt).1.projectile =
        (step i.projectile (i.lifetime + dt) dt).1 ∧
      (projectile_update_step step strong i dt).1.done =
        (step i.projectile (i.lifetime + dt) dt).2 ∧
      (projectile_update_step step strong i dt).1.root = i.root ∧
      (projectile_update_step step strong i dt).1.rc =
        (if (step i.projectile (i.lifetime + dt) dt).2 then i.rc.release
         else i.rc)) := by
  constructor
  · intro hd
    simp [projectile_update_step, hd]
  · intro hd
    rcases hstep : step i.projectile (i.lifetime + dt) dt with ⟨p, fin⟩
    cases fin <;> simp [projectile_update_step, hd, hstep]

/-- Witness for C5: a not-yet-done root instance whose dispatch reports
done this tick: the lifetime advances by `dt`, no despawn is issued, the
done flag is set and the token is released. -/
theorem c5_witness :
    (projectile_update_step (fun (p : Nat) (_ _ : ℚ) => (p + 1, true)) 1
        ⟨0, 0, Token.owned, false, true⟩ 1).1.lifetime = 0 + 1 ∧
    (projectile_update_step (fun (p : Nat) (_ _ : ℚ) => (p + 1, true)) 1
        ⟨0, 0, Token.owned, false, true⟩ 1).2 = false ∧
    (projectile_update_step (fun (p : Nat) (_ _ : ℚ) => (p + 1, true)) 1
        ⟨0, 0, Token.owned, false, true⟩ 1).1.projectile =
      ((fun (p : Nat) (_ _ : ℚ) => (p + 1, true)) 0 (0 + 1) 1).1 ∧
    (projectile_update_step (fun (p : Nat) (_ _ : ℚ) => (p + 1, true)) 1
        ⟨0, 0, Token.owned, false, true⟩ 1).1.done =
      ((fun (p : Nat) (_ _ : ℚ) => (p + 1, true)) 0 (0 + 1) 1).2 ∧
    (projectile_update_step (fun (p : Nat) (_ _ : ℚ) => (p + 1, true)) 1
        ⟨0, 0, Token.owned, false, true⟩ 1).1.root = true ∧
    (projectile_update_step (fun (p : Nat) (_ _ : ℚ) => (p + 1, true)) 1
        ⟨0, 0, Token.owned, false, true⟩ 1).1.rc =
      (if ((fun (p : Nat) (_ _ : ℚ) => (p + 1, true)) 0 (0 + 1) 1).2 then
        Token.owned.release else Token.owned) :=
  (c5_update_driver (fun (p : Nat) (_ _ : ℚ) => (p + 1, true)) 1
    ⟨0, 0, Token.owned, false, true⟩ 1).2 rfl

/-- Helper: across one adapter update, the `expired` flag becomes (and
stays) true as soon as `is_expired` holds at the tick's check, and
`on_expire` runs exactly on a call where the check holds while the flag is
still unset. -/
theorem instUpdate_flags (P : ProjModel σ) (s : σ) (e : Bool) (l dt : ℚ) :
    (instUpdate P s e l dt).expired = (e || P.isExpired s l) ∧
    (instUpdate P s e l dt).firedOnExpire = (P.isExpired s l && !e) := by
  have h : (projectilePhase P s e l dt).2.1 = (e || P.isExpired s l) ∧
      (projectilePhase P s e l dt).2.2 = (P.isExpired s l && !e) := by
    unfold projectilePhase
    cases hE : P.isExpired s l <;> cases e <;> simp [hE]
  unfold instUpdate
  rcases hp : projectilePhase P s e l dt with ⟨s1, e1, fired⟩
  rw [hp] at h
  simp only at h
  by_cases hs : P.hasSpawner s1 <;> simp [hs, h.1, h.2]

/-- Helper: in a run of adapter updates, `on_expire` fires at tick `k` iff
the adapter's flag was unset at the start, `is_expired` returned true at
tick `k`'s check, and at no earlier tick's check. -/
theorem instRun_fired_iff (P : ProjModel σ) :
    ∀ (dts : List ℚ) (s : σ) (e : Bool) (l : ℚ) (k : Nat),
      (((instRun P s e l dts).map Prod.snd)[k]? = some true) ↔
        (e = false ∧ (((instRun P s e l dts).map Prod.fst)[k]? = some true) ∧
         ∀ j, j < k → (((instRun P s e l dts).map Prod.fst)[j]? ≠ some true)) := by
  intro dts
  induction dts with
  | nil =>
    intro s e l k
    simp [instRun]
  | cons dt rest ih =>
    intro s e l k
    rw [instRun]
    rcases instUpdate_flags P s e (l + dt) dt with ⟨hexp, hfired⟩
    cases k with
    | zero =>
      simp only [List.map_cons, List.getElem?_cons_zero]
      rw [hfired]
      cases hE : P.isExpired s (l + dt) <;> cases e <;> simp
    | succ k =>
      simp only [List.map_cons, List.getElem?_cons_succ]
      rw [ih]
      rw [hexp]
      constructor
      · rintro ⟨he', hA, hB⟩
        rcases Bool.or_eq_false_iff.mp he' with ⟨he, hchk⟩
        refine ⟨he, hA, fun j hj => ?_⟩
        cases j with
        | zero => simp [hchk]
        | succ j =>
          simp only [List.getElem?_cons_succ]
          exact hB j (Nat.lt_of_succ_lt_succ hj)
      · rintro ⟨he, hA, hB⟩
        have hchk : P.isExpired s (l + dt) = false := by
          have h0 := hB 0 (Nat.succ_pos k)
          simpa using h0
        refine ⟨by simp [he, hchk], hA, fun j hj => ?_⟩
        have := hB (j + 1) (Nat.succ_lt_succ hj)
        simpa using this

/-- C2: for every projectile and every finite sequence of per-tick adapter
updates (starting unexpired, the driver advancing the lifetime by each
tick's `dt` before dispatch), `on_expire` runs at tick `k` iff `is_expired`
returned true at tick `k`'s check and at no earlier tick's check — i.e.
exactly once, on the first tick at which `is_expired` returns true, and
never on any later tick, even if `is_expired` keeps returning true. -/
theorem c2_on_expire_exactly_once (P : ProjModel σ) (s0 : σ) (dts : List ℚ)
    (k : Nat) :
    (((instRun P s0 false 0 dts).map Prod.snd)[k]? = some true) ↔
      ((((instRun P s0 false 0 dts).map Prod.fst)[k]? = some true) ∧
       ∀ j, j < k → (((instRun P s0 false 0 dts).map Prod.fst)[j]? ≠ some true)) := by
  rw [instRun_fired_iff]
  simp

/-- C9: no context accessor that reaches other instances ever dereferences
the entity currently being processed through the `unsafe_other` handle:
every accessor's result is invariant under arbitrarily changing the other
query's row for the current entity, `parent` never returns the current
entity, a relation pointing at the current entity yields the default, and
the current entity never appears among the children rows handed to a
callback. -/
theorem c9_no_self_reentry {O T C P : Type}
    (self : Nat) (rel childOf worldChildOf : Option Nat) (targets : List Nat)
    (other other' : Nat → Option O) (tr gt : O → T) (comp : O → Option C)
    (downcast : O → Option P) (dT dG : T)
    (h : ∀ e, e ≠ self → other e = other' e) :
    parent_transform self rel other tr dT = parent_transform self rel other' tr dT
    ∧ parent_global_transform self rel other gt dG
        = parent_global_transform self rel other' gt dG
    ∧ parentOf self childOf worldChildOf ≠ some self
    ∧ get_from_parent self childOf worldChildOf other comp
        = get_from_parent self childOf worldChildOf other' comp
    ∧ children_rows self targets other downcast
        = children_rows self targets other' downcast
    ∧ parent_transform self (some self) other tr dT = dT
    ∧ self ∉ (children_rows self targets other downcast).map Prod.fst := by
  have hpar : ∀ x, parentOf self childOf worldChildOf = some x → x ≠ self := by
    intro x hx
    unfold parentOf at hx
    rcases Option.bind_eq_some.mp hx with ⟨e, _, he⟩
    by_cases hes : e ≠ self
    · rw [if_pos hes] at he
      cases he
      exact hes
    · rw [if_neg hes] at he
      cases he
  refine ⟨?_, ?_, ?_, ?_, ?_, ?_, ?_⟩
  · rcases rel with _ | p
    · rfl
    · by_cases hp : p ≠ self
      · simp [parent_transform, hp, h p hp]
      · have hps : p = self := not_ne_iff.mp hp
        simp [parent_transform, hps]
  · rcases rel with _ | p
    · rfl
    · by_cases hp : p ≠ self
      · simp [parent_global_transform, hp, h p hp]
      · have hps : p = self := not_ne_iff.mp hp
        simp [parent_global_transform, hps]
  · intro hx
    exact hpar self hx rfl
  · unfold get_from_parent
    rcases hP : parentOf self childOf worldChildOf with _ | x
    · rfl
    · show (other x).bind comp = (other' x).bind comp
      rw [h x (hpar x hP)]
  · unfold children_rows
    refine List.filterMap_congr fun e _ => ?_
    by_cases he : e = self
    · simp [he]
    · simp [he, h e he]
  · simp [parent_transform]
  · intro hmem
    rcases List.mem_map.mp hmem with ⟨⟨e, p⟩, hep, hfst⟩
    simp only at hfst
    unfold children_rows at hep
    rcases List.mem_filterMap.mp hep with ⟨x, _, hx⟩
    by_cases hxs : x = self
    · rw [if_pos hxs] at hx
      cases hx
    · rw [if_neg hxs] at hx
      rcases Option.bind_eq_some.mp hx with ⟨o, _, hmap⟩
      rcases Option.map_eq_some'.mp hmap with ⟨q, _, hpair⟩
      cases hpair
      exact hxs hfst

/-- Witness for C9: concrete maps differing only at the current entity 5:
the parent transform read through either map is identical. -/
theorem c9_witness :
    parent_transform 5 (some 3)
        (fun e => if e = 5 then some 0 else some e) id 0 =
      parent_transform 5 (some 3)
        (fun e => if e = 5 then some 9 else some e) id 0 :=
  (c9_no_self_reentry 5 (some 3) (some 3) none [3, 5]
    (fun e => if e = 5 then some 0 else some e)
    (fun e => if e = 5 then some 9 else some e) id id some some 0 0
    (fun e he => by simp [he])).1

/-- C6 counterexample: there is no cached `ParentTransform` /
`ParentGlobalTransform` component nor a dedicated refresh system in the
code; the parent transform is read live through the update query. In the
concrete two-entity pass (parent 0 processed before its world-space child
1), the parent's update moves its transform from 0 to 1; the child's
`parent_transform` read during the same tick returns 1, which differs from
the parent's transform at the start of the tick (0) — refuting the claim
that the value read equals the parent's transform as of the start of the
tick. -/
theorem c6_start_of_tick_cex :
    (miniPass cexInsts [0, 1] cexWorld).1 = [(0, 0), (1, 1)] ∧
    cexWorld 0 = 0 ∧ ((1 : ℚ) ≠ 0) := by
  refine ⟨?_, rfl, by norm_num⟩
  simp [miniPass, cexInsts, cexWorld, parent_transform]

/-- C6 amended: a world-space child's `parent_transform` read goes through
the live `unsafe_other` query at the moment of the call, so it returns the
parent's current transform — in a pass where the parent (entity 0, update
`f`) is processed before the child (entity 1, update `g`), the child reads
exactly the parent's post-update transform `f (w 0) 0`, and the root's own
read (no parent relation) is the identity default. -/
theorem c6_live_parent_read (f g : ℚ → ℚ → ℚ) (w : Nat → ℚ) :
    (miniPass (fun e => if e = 0 then ⟨none, f⟩ else ⟨some 0, g⟩) [0, 1] w).1 =
      [(0, 0), (1, f (w 0) 0)] ∧
    (miniPass (fun e => if e = 0 then ⟨none, f⟩ else ⟨some 0, g⟩) [0, 1] w).2 0 =
      f (w 0) 0 := by
  constructor
  · simp [miniPass, parent_transform]
  · simp [miniPass, parent_transform]

/-- Helper: rewrite `applyCmd` without the `attach` used for termination. -/
theorem applyCmd_node (live : Nat → Option Bool) (e : Nat) (cs : List HTree) :
    applyCmd live (.node e cs) =
      match live e with
      | none => []
      | some prop =>
        e :: (if prop then (cs.map (applyCmd live)).flatten else []) := by
  rw [applyCmd]
  rcases live e with _ | prop
  · rfl
  · simp [List.attach_map_coe]

/-- Helper: `apply_projectile_command` on an entity with no instance. -/
theorem applyCmd_dead (live : Nat → Option Bool) (e : Nat) (cs : List HTree)
    (hl : live e = none) : applyCmd live (.node e cs) = [] := by
  rw [applyCmd_node, hl]

/-- Helper: `apply_projectile_command` on a live instance. -/
theorem applyCmd_live (live : Nat → Option Bool) (e : Nat) (cs : List HTree)
    (prop : Bool) (hl : live e = some prop) :
    applyCmd live (.node e cs) =
      e :: (if prop then (cs.map (applyCmd live)).flatten else []) := by
  rw [applyCmd_node, hl]

/-- Helper: rewrite `preorderT` without the `attach` used for termination. -/
theorem preorderT_node (e : Nat) (cs : List HTree) :
    preorderT (.node e cs) = e :: (cs.map preorderT).flatten := by
  rw [preorderT]
  simp [List.attach_map_coe]

/-- Helper: induction over the hierarchy tree via child membership. -/
theorem HTree.indOn (P : HTree → Prop)
    (h : ∀ e cs, (∀ c, c ∈ cs → P c) → P (.node e cs)) : ∀ t, P t
  | .node e cs => h e cs fun c hc => HTree.indOn P h c
termination_by t => sizeOf t
decreasing_by
  have := List.sizeOf_lt_of_mem hc
  simp only [HTree.node.sizeOf_spec]
  omega

/-- Helper: the entities a command is applied to are exactly those the
`Delivered` relation reaches. -/
theorem mem_applyCmd_iff (live : Nat → Option Bool) :
    ∀ t x, x ∈ applyCmd live t ↔ Delivered live t x := by
  have key : ∀ t, ∀ x, x ∈ applyCmd live t ↔ Delivered live t x := by
    apply HTree.indOn
    intro e cs ih x
    rcases hl : live e with _ | prop
    · rw [applyCmd_dead live e cs hl]
      simp only [List.not_mem_nil, false_iff]
      intro hD
      cases hD <;> simp_all
    · rw [applyCmd_live live e cs prop hl]
      cases prop
      · rw [if_neg (by simp)]
        simp only [List.mem_singleton]
        constructor
        · rintro rfl
          exact Delivered.here _ cs false hl
        · intro hD
          cases hD with
          | here => rfl
          | child =>
            rename_i t hlt ht hDt
            rw [hl] at hlt
            cases hlt
      · rw [if_pos rfl]
        simp only [List.mem_cons, List.mem_flatten, List.mem_map]
        constructor
        · rintro (rfl | ⟨_, ⟨c, hc, rfl⟩, hx⟩)
          · exact Delivered.here _ cs true hl
          · exact Delivered.child e cs c x hl hc ((ih c hc x).mp hx)
        · intro hD
          cases hD with
          | here => exact Or.inl rfl
          | child =>
            rename_i t hlt ht hDt
            exact Or.inr ⟨applyCmd live t, ⟨t, ht, rfl⟩, (ih t ht x).mpr hDt⟩
  exact key

/-- Helper: pointwise sublists flatten to a sublist. -/
theorem flatten_map_sublist (f g : HTree → List Nat) :
    ∀ cs : List HTree, (∀ c ∈ cs, List.Sublist (f c) (g c)) →
      List.Sublist ((cs.map f).flatten) ((cs.map g).flatten) := by
  intro cs
  induction cs with
  | nil => intro _; simp
  | cons c cs ih =>
    intro h
    simp only [List.map_cons, List.flatten_cons]
    exact (h c (by simp)).append (ih fun d hd => h d (by simp [hd]))

/-- Helper: the application list is a sublist of the preorder traversal. -/
theorem applyCmd_sublist_preorder (live : Nat → Option Bool) :
    ∀ t, List.Sublist (applyCmd live t) (preorderT t) := by
  apply HTree.indOn
  intro e cs ih
  rw [preorderT_node]
  rcases hl : live e with _ | prop
  · rw [applyCmd_dead live e cs hl]
    exact List.nil_sublist _
  · rw [applyCmd_live live e cs prop hl]
    cases prop
    · rw [if_neg (by simp)]
      exact (List.nil_sublist _).cons₂ e
    · rw [if_pos rfl]
      exact (flatten_map_sublist _ _ cs ih).cons₂ e

/-- C7: processing a `ProjectileCommand` applies the command to the
addressed instance and, whenever an instance's `apply_command` signals
propagation, recursively (depth-first) to its hierarchy children: an entity
receives the command iff it is reachable from the addressed root through
live instances whose `apply_command` propagates; and when the hierarchy
holds no duplicate entities, no entity receives the command more than once
per event. -/
theorem c7_command_propagation (live : Nat → Option Bool) (t : HTree) :
    (∀ x, x ∈ applyCmd live t ↔ Delivered live t x)
    ∧ ((preorderT t).Nodup → ∀ x, (applyCmd live t).count x ≤ 1) := by
  refine ⟨mem_applyCmd_iff live t, fun hnd x => ?_⟩
  calc (applyCmd live t).count x ≤ (preorderT t).count x :=
        (applyCmd_sublist_preorder live t).count_le x
    _ ≤ 1 := List.nodup_iff_count_le_one.mp hnd x

/-- Witness for C7: a root commanding two children in a duplicate-free
hierarchy: entity 2 receives the command at most once. -/
theorem c7_witness :
    (applyCmd (fun e => if e = 0 then some true else some false)
      (.node 0 [.node 1 [], .node 2 []])).count 2 ≤ 1 :=
  (c7_command_propagation (fun e => if e = 0 then some true else some false)
    (.node 0 [.node 1 [], .node 2 []])).2
    (by
      simp only [preorderT_node, List.map_cons, List.map_nil,
        List.flatten_cons, List.flatten_nil]
      decide) 2

end BevyJavelin
